import Mathlib

/-!
Verification of the bui scaffolding tool's field-declaration compiler, naming
derivation, presentation adapter and registry patcher.

The Go sources are shallowly embedded: pure functions become Lean functions on
`String`/`List Char`, the registry patcher's read-modify-write of `app/init.go`
becomes explicit state passing over an `Option String` file state, and the
frontend display-field lookup takes the file system as an association list.
Functions present in the source tree (`parseFieldDef`, `NewTemplateData`,
`updateComputedProperties`, `addStandardImports`, the nuxt presentation
helpers, `addModuleToAppInit`, `generateBackendModule`,
`getRelatedModelDisplayField`) are translated from the source; repository
helpers whose defining files are not in the corpus (the casing utilities, the
alias tables, `NewNamingConvention`, `ParseField`, `AddImport`) are modelled
from the specification and are marked as such in their doc comments.
-/

namespace Bui

/-! ### String infrastructure

Go's `strings` package operations, embedded on `List Char`.  All recursions
are structural so every definition reduces in the kernel. -/

/-- Embeds `strings.HasPrefix` on character lists: `listStartsWith needle hay`
is true when `needle` is a prefix of `hay`. -/
def listStartsWith : List Char → List Char → Bool
  | [], _ => true
  | _ :: _, [] => false
  | a :: as, b :: bs => if a = b then listStartsWith as bs else false

/-- Index of the first occurrence of `needle` in `hay`, if any
(embeds `strings.Index`). -/
def findIdxSub : List Char → List Char → Option Nat
  | [], needle => if listStartsWith needle [] then some 0 else none
  | c :: t, needle =>
    if listStartsWith needle (c :: t) then some 0
    else (findIdxSub t needle).map (· + 1)

/-- Embeds `strings.Contains` on character lists. -/
def containsSub (hay needle : List Char) : Bool :=
  (findIdxSub hay needle).isSome

/-- Embeds `strings.Contains`. -/
def strContains (s sub : String) : Bool :=
  containsSub s.data sub.data

/-- Embeds `strings.Index` (as an `Option Nat` instead of `-1` for a miss). -/
def strFindIdx (s sub : String) : Option Nat :=
  findIdxSub s.data sub.data

/-- Embeds `strings.HasPrefix`. -/
def strStartsWith (s p : String) : Bool :=
  listStartsWith p.data s.data

/-- Embeds `strings.HasSuffix`. -/
def strEndsWith (s p : String) : Bool :=
  listStartsWith p.data.reverse s.data.reverse

/-- Embeds Go's `content[:p] + ins + content[p:]` string surgery. -/
def strInsertAt (s : String) (p : Nat) (ins : String) : String :=
  String.mk (s.data.take p ++ ins.data ++ s.data.drop p)

/-- Embeds `strings.Split(s, sep)` for a one-character separator: empty
segments are kept and the result is never empty. -/
def splitChars (sep : Char) : List Char → List (List Char)
  | [] => [[]]
  | c :: cs =>
    if c = sep then [] :: splitChars sep cs
    else
      match splitChars sep cs with
      | [] => [[c]]
      | w :: ws => (c :: w) :: ws

/-- Embeds `strings.Split(s, ":")`, the only split the field DSL uses. -/
def goSplitColon (s : String) : List String :=
  (splitChars ':' s.data).map String.mk

theorem strData_append (a b : String) : (a ++ b).data = a.data ++ b.data := by
  cases a; cases b; rfl

theorem strMk_data (s : String) : String.mk s.data = s := rfl

theorem listStartsWith_self_append (n t : List Char) :
    listStartsWith n (n ++ t) = true := by
  induction n with
  | nil => rfl
  | cons c cs ih => simp [listStartsWith, ih]

theorem listStartsWith_mono (n a t : List Char) (h : listStartsWith n a = true) :
    listStartsWith n (a ++ t) = true := by
  induction n generalizing a with
  | nil => rfl
  | cons c cs ih =>
    cases a with
    | nil => simp [listStartsWith] at h
    | cons b bs =>
      simp only [listStartsWith] at h ⊢
      split at h
      · simp [*, ih bs h]
      · exact absurd h (by simp)

theorem containsSub_cons (c : Char) (t needle : List Char) :
    containsSub (c :: t) needle
      = (listStartsWith needle (c :: t) || containsSub t needle) := by
  simp only [containsSub, findIdxSub]
  split
  · simp [*]
  · simp [*, Option.isSome_map]

theorem containsSub_append_right (a b n : List Char)
    (h : containsSub b n = true) : containsSub (a ++ b) n = true := by
  induction a with
  | nil => exact h
  | cons c cs ih => simp [containsSub_cons, ih]

theorem containsSub_append_left (a b n : List Char)
    (h : containsSub a n = true) : containsSub (a ++ b) n = true := by
  induction a with
  | nil =>
    simp only [containsSub, findIdxSub] at h
    split at h
    · rename_i hsw
      cases n with
      | nil => cases b <;> simp [containsSub, findIdxSub, listStartsWith]
      | cons x xs => simp [listStartsWith] at hsw
    · simp at h
  | cons c cs ih =>
    rw [containsSub_cons] at h
    rcases Bool.or_eq_true_iff.mp h with hsw | hrec
    · have h2 : listStartsWith n ((c :: cs) ++ b) = true :=
        listStartsWith_mono n (c :: cs) b hsw
      rw [List.cons_append] at h2
      simp [containsSub_cons, h2]
    · simp [containsSub_cons, ih hrec]

theorem containsSub_self_append (n t : List Char) :
    containsSub (n ++ t) n = true := by
  cases n with
  | nil => cases t <;> simp [containsSub, findIdxSub, listStartsWith]
  | cons c cs =>
    have h2 : listStartsWith (c :: cs) ((c :: cs) ++ t) = true :=
      listStartsWith_self_append _ _
    rw [List.cons_append] at h2
    simp [containsSub_cons, h2]

theorem containsSub_middle (x m y n : List Char)
    (h : containsSub m n = true) : containsSub (x ++ m ++ y) n = true := by
  rw [List.append_assoc]
  exact containsSub_append_right _ _ _ (containsSub_append_left _ _ _ h)

theorem splitChars_nosep (sep : Char) (a : List Char) (h : sep ∉ a) :
    splitChars sep a = [a] := by
  induction a with
  | nil => rfl
  | cons c cs ih =>
    have hc : c ≠ sep := fun hcs => h (hcs ▸ List.mem_cons_self c cs)
    have hcs : sep ∉ cs := fun hm => h (List.mem_cons_of_mem c hm)
    simp [splitChars, hc, ih hcs]

theorem splitChars_append (sep : Char) (a b : List Char) (h : sep ∉ a) :
    splitChars sep (a ++ sep :: b) = a :: splitChars sep b := by
  induction a with
  | nil => simp [splitChars]
  | cons c cs ih =>
    have hc : c ≠ sep := fun hcs => h (hcs ▸ List.mem_cons_self c cs)
    have hcs : sep ∉ cs := fun hm => h (List.mem_cons_of_mem c hm)
    have h2 := ih hcs
    rw [List.cons_append]
    rw [splitChars, if_neg hc]
    rw [h2]

/-! ### Casing utilities

Modelled from the spec: the repository's casing helpers (`ToSnakeCase`,
`ToPascalCase`, `ToKebabCase`, `TrimIdSuffix`) live in a utils source file
that is not part of this corpus; the spec describes them as producing the
"machine identifier forms (snake_case singular/plural, kebab-case plural,
pascal-case singular)".  They are modelled by one tokenizer that splits an
identifier into lowercase words (at uppercase letters and at any
non-alphanumeric separator) and re-joins the words per target convention. -/

/-- Character that may appear inside a lowercased identifier word. -/
def isWordChar (c : Char) : Bool := c.isLower || c.isDigit

/-- Tokenizer core: splits into lowercase words, lowering uppercase letters
and treating any other character as a separator.  `cur` is the current word,
reversed. -/
def wordsAux : List Char → List Char → List (List Char)
  | [], cur => if cur = [] then [] else [cur.reverse]
  | c :: rest, cur =>
    if c.isUpper then
      if cur = [] then wordsAux rest [c.toLower]
      else cur.reverse :: wordsAux rest [c.toLower]
    else if isWordChar c then wordsAux rest (c :: cur)
    else if cur = [] then wordsAux rest []
    else cur.reverse :: wordsAux rest []

/-- The identifier words of a string. -/
def strWords (s : String) : List (List Char) := wordsAux s.data []

/-- Join words with a separator character. -/
def joinWith (sep : Char) : List (List Char) → List Char
  | [] => []
  | [w] => w
  | w :: x :: ws => w ++ sep :: joinWith sep (x :: ws)

/-- Modelled from the spec: snake_case machine identifier form. -/
def ToSnakeCase (s : String) : String := String.mk (joinWith '_' (strWords s))

/-- Modelled from the spec: kebab-case machine identifier form. -/
def ToKebabCase (s : String) : String := String.mk (joinWith '-' (strWords s))

/-- Capitalize the first character of a word. -/
def capitalizeWord : List Char → List Char
  | [] => []
  | c :: cs => c.toUpper :: cs

/-- Modelled from the spec: pascal-case machine identifier form. -/
def ToPascalCase (s : String) : String :=
  String.mk ((strWords s).foldr (fun w acc => capitalizeWord w ++ acc) [])

/-- Modelled from the spec: the companion-object naming rule "removes an
identifier suffix from the foreign-key name"; keeps the name unchanged when
the suffix is absent. -/
def TrimIdSuffix (s : String) : String :=
  if strEndsWith s "Id" then String.mk (s.data.take (s.data.length - 2)) else s

/-- Embeds `strings.ToLower`. -/
def strToLower (s : String) : String := String.mk (s.data.map Char.toLower)

/-! ### Tokenizer lemmas: snake-casing is idempotent -/

/-- A character as produced inside a tokenizer word: not uppercase and a
word character. -/
def goodChar (c : Char) : Prop := c.isUpper = false ∧ isWordChar c = true

theorem toLower_good_of_isUpper (c : Char) (h : c.isUpper = true) :
    goodChar c.toLower := by
  have h1 : 65 ≤ c.toNat ∧ c.toNat ≤ 90 := by simpa [Char.isUpper] using h
  have hl : c.toLower = Char.ofNat (c.toNat + 32) := by
    rw [Char.toLower, if_pos ⟨h1.1, h1.2⟩]
  rw [goodChar, hl]
  obtain ⟨ha, hb⟩ := h1
  set n := c.toNat with hn
  interval_cases n <;> exact ⟨by decide, by decide⟩

theorem good_of_isWordChar (c : Char) (h : isWordChar c = true) : goodChar c := by
  refine ⟨?_, h⟩
  rw [Bool.eq_false_iff]
  intro hup
  have h1 : 65 ≤ c.toNat ∧ c.toNat ≤ 90 := by simpa [Char.isUpper] using hup
  simp only [isWordChar, Bool.or_eq_true] at h
  rcases h with hl | hd
  · have h2 : 97 ≤ c.toNat ∧ c.toNat ≤ 122 := by simpa [Char.isLower] using hl
    omega
  · have h2 : 48 ≤ c.toNat ∧ c.toNat ≤ 57 := by simpa [Char.isDigit] using hd
    omega

theorem wordsAux_good (l : List Char) :
    ∀ cur, (∀ c ∈ cur, goodChar c) →
      ∀ w ∈ wordsAux l cur, w ≠ [] ∧ ∀ c ∈ w, goodChar c := by
  induction l with
  | nil =>
    intro cur hcur w hw
    simp only [wordsAux] at hw
    split at hw
    · simp at hw
    · rename_i hne
      simp only [List.mem_singleton] at hw
      subst hw
      exact ⟨by simpa using hne, fun c hc => hcur c (List.mem_reverse.mp hc)⟩
  | cons c rest ih =>
    intro cur hcur w hw
    simp only [wordsAux] at hw
    split at hw
    · rename_i hup
      split at hw
      · exact ih [c.toLower] (by simpa using toLower_good_of_isUpper c hup) w hw
      · rename_i hne
        rcases List.mem_cons.mp hw with rfl | hmem
        · exact ⟨by simpa using hne, fun x hx => hcur x (List.mem_reverse.mp hx)⟩
        · exact ih [c.toLower] (by simpa using toLower_good_of_isUpper c hup) w hmem
    · split at hw
      · rename_i hwc
        refine ih (c :: cur) ?_ w hw
        intro x hx
        rcases List.mem_cons.mp hx with rfl | hx
        · exact good_of_isWordChar x hwc
        · exact hcur x hx
      · split at hw
        · exact ih [] (by simp) w hw
        · rename_i hne
          rcases List.mem_cons.mp hw with rfl | hmem
          · exact ⟨by simpa using hne, fun x hx => hcur x (List.mem_reverse.mp hx)⟩
          · exact ih [] (by simp) w hmem

theorem wordsAux_word_chars (w : List Char) :
    ∀ rest cur, (∀ c ∈ w, goodChar c) →
      wordsAux (w ++ rest) cur = wordsAux rest (w.reverse ++ cur) := by
  induction w with
  | nil => intro rest cur _; simp
  | cons c cs ih =>
    intro rest cur hgood
    have hc : goodChar c := hgood c (List.mem_cons_self c cs)
    have hcs : ∀ x ∈ cs, goodChar x := fun x hx => hgood x (List.mem_cons_of_mem c hx)
    rw [List.cons_append, wordsAux, if_neg (by simp [hc.1]), if_pos hc.2,
      ih rest (c :: cur) hcs]
    simp

theorem wordsAux_join (ws : List (List Char))
    (h : ∀ w ∈ ws, w ≠ [] ∧ ∀ c ∈ w, goodChar c) :
    wordsAux (joinWith '_' ws) [] = ws := by
  induction ws with
  | nil => rfl
  | cons w ws ih =>
    have hw := h w (List.mem_cons_self w ws)
    cases ws with
    | nil =>
      show wordsAux w [] = [w]
      have := wordsAux_word_chars w [] [] hw.2
      rw [List.append_nil] at this
      rw [this]
      simp only [wordsAux, List.append_nil]
      rw [if_neg (by simpa using hw.1)]
      simp
    | cons x xs =>
      have hx : ∀ v ∈ x :: xs, v ≠ [] ∧ ∀ c ∈ v, goodChar c :=
        fun v hv => h v (List.mem_cons_of_mem w hv)
      show wordsAux (w ++ '_' :: joinWith '_' (x :: xs)) [] = w :: x :: xs
      rw [wordsAux_word_chars w _ [] hw.2, List.append_nil, wordsAux,
        if_neg (by decide), if_neg (by decide), if_neg (by simpa using hw.1)]
      simp only [List.reverse_reverse]
      rw [ih hx]

theorem strWords_snake (s : String) : strWords (ToSnakeCase s) = strWords s :=
  wordsAux_join (strWords s) (wordsAux_good s.data [] (by simp))

theorem ToSnakeCase_idem (s : String) :
    ToSnakeCase (ToSnakeCase s) = ToSnakeCase s := by
  show String.mk (joinWith '_' (strWords (ToSnakeCase s))) = _
  rw [strWords_snake]
  rfl

/-! ### Naming derivation -/

/-- Modelled from the spec: pluralization is a deterministic heuristic —
trailing `y` → `ies`, trailing sibilant → `es`, else `+s`. -/
def Pluralize (s : String) : String :=
  if strEndsWith s "y" then String.mk (s.data.take (s.data.length - 1)) ++ "ies"
  else if strEndsWith s "s" || strEndsWith s "sh" || strEndsWith s "ch"
      || strEndsWith s "x" || strEndsWith s "z" then s ++ "es"
  else s ++ "s"

/-- Embeds `Singularize` from `utils/template.go`: basic plural-to-singular
heuristic. -/
def Singularize (word : String) : String :=
  if strEndsWith word "ies" then String.mk (word.data.take (word.data.length - 3)) ++ "y"
  else if strEndsWith word "es" then String.mk (word.data.take (word.data.length - 2))
  else if strEndsWith word "s" then String.mk (word.data.take (word.data.length - 1))
  else word

/-- Replace snake separators by kebab separators. -/
def snakeToKebab (s : String) : String :=
  String.mk (s.data.map (fun c => if c = '_' then '-' else c))

/-- The naming-convention record: canonical singular plus every derived
casing variant used by the generated artifacts. -/
structure NamingConvention where
  Model : String
  ModelSnake : String
  PluralSnake : String
  PluralKebab : String
  DirName : String
  deriving Repr, DecidableEq

/-- All naming forms as pure functions of the snake-cased singular. -/
def namingFrom (base : String) : NamingConvention :=
  { Model := ToPascalCase base
    ModelSnake := base
    PluralSnake := Pluralize base
    PluralKebab := snakeToKebab (Pluralize base)
    DirName := Pluralize base }

/-- Modelled from the spec: `utils.NewNamingConvention` (its defining file is
not in the corpus; only callers are).  The input is the module's singular
name; every form is a pure function of its snake-cased singular
(`ModelSnake`), the pluralization heuristic is applied once and reused, and
the directory name is the plural snake form. -/
def NewNamingConvention (name : String) : NamingConvention :=
  namingFrom (ToSnakeCase name)

/-! ### Type alias and relationship alias resolution

Modelled from the spec: the alias tables live in a utils source file that is
not in the corpus.  The spec fixes the canonical relationship kinds
(`belongs_to`, `has_one`, `has_many`, `many_to_many`), says each canonical
kind may have multiple surface spellings (the source comments show
`belongsTo`, `hasMany`, `toMany`, ...), and says unknown simple type tokens
fall back to a string scalar. -/

/-- Modelled from the spec: map a surface spelling of a relationship kind to
its canonical kind, or `""` when the spelling is unknown. -/
def GetCanonicalRelationship (kind : String) : String :=
  if kind = "belongsTo" || kind = "belongs_to" then "belongs_to"
  else if kind = "hasOne" || kind = "has_one" then "has_one"
  else if kind = "hasMany" || kind = "has_many" || kind = "toMany"
      || kind = "to_many" then "has_many"
  else if kind = "manyToMany" || kind = "many_to_many" then "many_to_many"
  else ""

/-- Modelled from the spec: membership in the relationship-kind alias table. -/
def IsRelationshipType (kind : String) : Bool :=
  GetCanonicalRelationship kind ≠ ""

/-- Resolved type descriptor produced by the type alias resolver. -/
structure ResolvedType where
  Category : String
  GoType : String
  deriving Repr, DecidableEq

/-- Modelled from the spec: map a simple type token to its Go target type;
unrecognized tokens fall back to the string scalar. -/
def GetGoTypeFromAlias (t : String) : String :=
  if t = "string" then "string"
  else if t = "text" then "text"
  else if t = "int" then "int"
  else if t = "uint" then "uint"
  else if t = "float" || t = "float64" then "float64"
  else if t = "float32" then "float32"
  else if t = "bool" then "bool"
  else if t = "datetime" || t = "timestamp" then "time.Time"
  else if t = "json" then "datatypes.JSON"
  else if t = "image" || t = "file" || t = "attachment" then "*storage.Attachment"
  else if t = "media" then "media.Media"
  else if t = "translation" then "translation.Field"
  else "string"

/-- Modelled from the spec: resolve a simple type token to a canonical
descriptor plus a semantic category (scalar, storage attachment, media,
translatable). -/
def ResolveFieldType (t : String) : ResolvedType :=
  if t = "image" || t = "file" || t = "attachment" then
    { Category := "storage", GoType := "*storage.Attachment" }
  else if t = "media" then { Category := "media", GoType := "media.Media" }
  else if t = "translation" then
    { Category := "translation", GoType := "translation.Field" }
  else { Category := "scalar", GoType := GetGoTypeFromAlias t }

/-! ### The field record and the field parser -/

/-- Embeds the `utils.Field` struct: the canonical resolved field record
consumed by every template. -/
structure Field where
  Name : String := ""
  «Type» : String := ""
  JSONTag : String := ""
  JSONName : String := ""
  DBName : String := ""
  GORM : String := ""
  GORMTag : String := ""
  Relationship : String := ""
  RelatedModel : String := ""
  IsRelation : Bool := false
  RelationType : String := ""
  IsMedia : Bool := false
  IsMediaFK : Bool := false
  MediaFKField : String := ""
  MediaFKJSONName : String := ""
  IsImage : Bool := false
  IsFile : Bool := false
  IsAttachment : Bool := false
  IsSelect : Bool := false
  SelectType : String := ""
  Options : List String := []
  deriving Repr, DecidableEq

/-- Embeds `inferFieldTypeCompat` from `utils/template.go`: names ending in
`_id` default to an integer scalar, everything else to a string scalar. -/
def inferFieldTypeCompat (fieldName : String) : String :=
  if strEndsWith (strToLower fieldName) "_id" then "uint" else "string"

/-- Embeds `parseFieldDef` from `utils/template.go`: parses one field
definition using the alias system.  Arity 1 infers the type from the name;
arity 2 resolves a simple type token; arity ≥ 3 takes the relationship path,
validating the kind against the relationship alias table. -/
def parseFieldDef (fieldDef : String) : Field :=
  let parts := goSplitColon fieldDef
  let fieldName := parts.headD ""
  let fieldType :=
    if parts.length = 1 then inferFieldTypeCompat fieldName
    else if parts.length = 2 then parts.getD 1 ""
    else fieldDef
  let field0 : Field :=
    { Name := ToPascalCase fieldName
      JSONName := ToSnakeCase fieldName
      DBName := ToSnakeCase fieldName }
  let field :=
    if strContains fieldType ":" then
      let parts2 := goSplitColon fieldType
      if parts2.length ≥ 2 then
        let relationType := parts2.getD 1 ""
        if IsRelationshipType relationType then
          let canonical := GetCanonicalRelationship relationType
          let relatedModel :=
            if parts2.length > 2 then ToPascalCase (parts2.getD 2 "")
            else ToPascalCase (Singularize fieldName)
          let f := { field0 with
            IsRelation := true
            Relationship := canonical
            RelationType := canonical
            RelatedModel := relatedModel }
          if canonical = "many_to_many" then
            { f with «Type» := "[]*" ++ relatedModel, JSONName := ToSnakeCase fieldName }
          else if canonical = "has_many" then
            { f with «Type» := "[]*" ++ relatedModel
                     JSONName := ToSnakeCase fieldName ++ ",omitempty" }
          else if canonical = "has_one" then
            { f with «Type» := "*" ++ relatedModel
                     JSONName := ToSnakeCase fieldName ++ ",omitempty" }
          else if canonical = "belongs_to" then
            { f with «Type» := "*" ++ relatedModel
                     JSONName := ToSnakeCase fieldName ++ ",omitempty" }
          else f
        else field0
      else field0
    else
      let resolved := ResolveFieldType fieldType
      let f := { field0 with «Type» := GetGoTypeFromAlias fieldType }
      if resolved.Category = "storage" then
        { f with JSONName := ToSnakeCase fieldName
                 GORMTag := "gorm:\"foreignKey:ModelId;references:Id\"" }
      else if resolved.Category = "media" then
        let foreignKeyField := f.Name ++ "Id"
        { f with JSONName := ToSnakeCase fieldName
                 GORMTag := "gorm:\"foreignKey:" ++ foreignKeyField ++ "\""
                 IsMedia := true
                 MediaFKField := foreignKeyField
                 MediaFKJSONName := ToSnakeCase foreignKeyField }
      else if resolved.Category = "translation" then
        { f with «Type» := resolved.GoType
                 JSONName := ToSnakeCase fieldName
                 GORMTag := "gorm:\"foreignKey:ModelId;references:Id\"" }
      else f
  { field with JSONTag := field.JSONName, GORM := field.GORMTag }

/-- Modelled from the spec: `utils.ParseField`, the centralized parser used
by `NewTemplateData` and the frontend generator, whose defining file is not
in the corpus.  Per the spec a multi-part declaration with the `media`
keyword ("arity ≥ 2 with a recognized relation/media keyword") takes the
media path, resolving exactly like the single-token `media` alias with
foreign-key identifier `<Name>Id`.  A `belongs_to` declaration resolves to
the nullable foreign-key scalar itself: its identifier carries the `Id`
suffix and its JSON key the `_id` suffix (the spec's example compiles
`parent:belongsTo:ProductCategory` to `parent_id` plus `parent`, the
companion rule strips an identifier suffix that must therefore be present,
and the repository's `ConvertToNuxtField` derives the relation-object name
with `TrimSuffix(JSONName, "_id")`); the companion relation-object field is
synthesized later by `NewTemplateData`.  Every other declaration behaves as
`parseFieldDef`. -/
def ParseField (fieldDef : String) : Field :=
  let parts := goSplitColon fieldDef
  if parts.length ≥ 3 ∧ parts.getD 1 "" = "media" then
    let fieldName := parts.headD ""
    let f : Field :=
      { Name := ToPascalCase fieldName
        JSONName := ToSnakeCase fieldName
        DBName := ToSnakeCase fieldName
        «Type» := "media.Media" }
    let foreignKeyField := f.Name ++ "Id"
    let f := { f with
      GORMTag := "gorm:\"foreignKey:" ++ foreignKeyField ++ "\""
      IsMedia := true
      MediaFKField := foreignKeyField
      MediaFKJSONName := ToSnakeCase foreignKeyField }
    { f with JSONTag := f.JSONName, GORM := f.GORMTag }
  else if parts.length ≥ 3
      ∧ GetCanonicalRelationship (parts.getD 1 "") = "belongs_to" then
    let fieldName := parts.headD ""
    let f : Field :=
      { Name := ToPascalCase fieldName ++ "Id"
        «Type» := "*uint"
        JSONName := ToSnakeCase fieldName ++ "_id"
        DBName := ToSnakeCase fieldName ++ "_id"
        Relationship := "belongs_to"
        RelationType := "belongs_to"
        RelatedModel := ToPascalCase (parts.getD 2 "")
        IsRelation := true }
    { f with JSONTag := f.JSONName, GORM := f.GORMTag }
  else parseFieldDef fieldDef

/-! ### The field compiler: `NewTemplateData` -/

/-- Embeds the `utils.TemplateData` struct: naming plus the compiled field
list plus the module-wide derived flags. -/
structure TemplateData where
  naming : NamingConvention
  ModuleName : String := ""
  Fields : List Field := []
  HasRelations : Bool := false
  HasBelongsTo : Bool := false
  HasHasMany : Bool := false
  HasHasOne : Bool := false
  HasManyToMany : Bool := false
  HasImages : Bool := false
  HasFiles : Bool := false
  HasMedia : Bool := false
  HasAttachments : Bool := false
  HasTimestamps : Bool := false
  HasSoftDelete : Bool := false
  HasTranslatableFields : Bool := false
  Imports : List String := []
  JoinTables : List String := []
  deriving Repr, DecidableEq

/-- Embeds the companion relation-object field synthesized for a
`belongs_to` declaration (`NewTemplateData`, `utils/template.go` lines
102–117): its name is the foreign-key field's name with the identifier
suffix stripped. -/
def relationFieldOf (field : Field) : Field :=
  let objectName := TrimIdSuffix field.Name
  { Name := objectName
    «Type» := "*" ++ field.RelatedModel
    JSONTag := ToSnakeCase objectName ++ ",omitempty"
    JSONName := ToSnakeCase objectName ++ ",omitempty"
    DBName := ToSnakeCase objectName
    GORM := "gorm:\"foreignKey:" ++ field.Name ++ "\""
    GORMTag := "gorm:\"foreignKey:" ++ field.Name ++ "\""
    Relationship := "belongs_to_object"
    RelatedModel := field.RelatedModel
    IsRelation := true
    RelationType := "belongs_to_object" }

/-- Embeds the foreign-key field synthesized for a media declaration
(`NewTemplateData`, `utils/template.go` lines 121–133): a nullable `*uint`
column named by the parsed field's `MediaFKField`. -/
def mediaFKFieldOf (field : Field) : Field :=
  { Name := field.MediaFKField
    «Type» := "*uint"
    JSONTag := ToSnakeCase field.MediaFKField ++ ",omitempty"
    JSONName := ToSnakeCase field.MediaFKField
    DBName := ToSnakeCase field.MediaFKField
    GORM := "gorm:\"column:" ++ ToSnakeCase field.MediaFKField ++ "\""
    GORMTag := "gorm:\"column:" ++ ToSnakeCase field.MediaFKField ++ "\""
    IsMedia := false
    IsMediaFK := true
    MediaFKField := field.MediaFKField
    MediaFKJSONName := field.MediaFKJSONName }

/-- The fields `NewTemplateData` appends for one declaration: a `belongs_to`
declaration yields the parsed foreign-key field then the synthesized
relation-object field; a media declaration yields the synthesized foreign-key
field then the parsed media field; everything else yields the parsed field
alone. -/
def compileDef (fieldDef : String) : List Field :=
  let field := ParseField fieldDef
  if field.Relationship = "belongs_to" then [field, relationFieldOf field]
  else if field.IsMedia then [mediaFKFieldOf field, field]
  else [field]

/-- The concatenated fields of a declaration list, in declaration order. -/
def compileAll : List String → List Field
  | [] => []
  | d :: ds => compileDef d ++ compileAll ds

theorem compileAll_append (a b : List String) :
    compileAll (a ++ b) = compileAll a ++ compileAll b := by
  induction a with
  | nil => rfl
  | cons d ds ih => simp [compileAll, ih]

/-- Embeds `updateComputedProperties` from `utils/template.go`: updates the
module-wide flags from one parsed field. -/
def updateComputedProperties (td : TemplateData) (field : Field) : TemplateData :=
  let td1 :=
    if field.IsRelation then
      let td' := { td with HasRelations := true }
      if field.RelationType = "belongs_to" then { td' with HasBelongsTo := true }
      else if field.RelationType = "has_many" then { td' with HasHasMany := true }
      else if field.RelationType = "has_one" then { td' with HasHasOne := true }
      else if field.RelationType = "many_to_many" then { td' with HasManyToMany := true }
      else td'
    else td
  let td2 := if field.IsImage then { td1 with HasImages := true, HasAttachments := true } else td1
  let td3 := if field.IsFile then { td2 with HasFiles := true, HasAttachments := true } else td2
  let td4 := if field.IsMedia then { td3 with HasMedia := true } else td3
  let td5 := if field.«Type» = "translation.Field" then { td4 with HasTranslatableFields := true } else td4
  let td6 := if field.«Type» = "media.Media" then { td5 with HasMedia := true } else td5
  if field.«Type» = "time.Time" then
    if field.Name = "DeletedAt" then { td6 with HasSoftDelete := true }
    else if field.Name = "CreatedAt" ∨ field.Name = "UpdatedAt" then
      { td6 with HasTimestamps := true }
    else td6
  else td6

/-- Append an import if it is not present yet (the Go source deduplicates via
a map whose iteration order is unspecified; the model keeps a deterministic
insertion order, which no claim inspects). -/
def addImportIfNew (l : List String) (imp : String) : List String :=
  if imp ∈ l then l else l ++ [imp]

/-- Embeds `addStandardImports` from `utils/template.go`. -/
def addStandardImports (td : TemplateData) : TemplateData :=
  let imports := td.Fields.foldl (fun acc f =>
    let acc := if f.«Type» = "time.Time" then addImportIfNew acc "time" else acc
    let acc := if f.«Type» = "datatypes.JSON" then addImportIfNew acc "gorm.io/datatypes" else acc
    let acc := if f.«Type» = "*storage.Attachment" then addImportIfNew acc "base/core/storage" else acc
    let acc := if f.«Type» = "translation.Field" then addImportIfNew acc "base/core/translation" else acc
    let acc := if f.«Type» = "media.Media" then addImportIfNew acc "base/core/media" else acc
    if f.IsMedia then addImportIfNew acc "base/core/app/media" else acc)
    ["time", "gorm.io/gorm"]
  { td with Imports := imports }

/-- Embeds `NewTemplateData` from `utils/template.go`.  The source loop
interleaves, per declaration, the field appends (factored here as
`compileAll`) with the flag updates (which read only the parsed field and
never the field list, so the two folds commute with the appends). -/
def NewTemplateData (modelName : String) (fieldDefs : List String) : TemplateData :=
  let nc := NewNamingConvention modelName
  let td0 : TemplateData := { naming := nc, Fields := compileAll fieldDefs }
  let td1 := fieldDefs.foldl (fun td d => updateComputedProperties td (ParseField d)) td0
  addStandardImports td1

/-! ### Presentation adapter (`utils/nuxt.go`) -/

/-- Embeds `ShouldShowInTable` from `utils/nuxt.go` (current revision, which
additionally hides `belongs_to` foreign keys; the earlier revision of the
file lacks only that clause). -/
def ShouldShowInTable (field : Field) : Bool :=
  let fieldName := strToLower field.JSONName
  if fieldName = "id" || fieldName = "created_at" || fieldName = "updated_at"
      || fieldName = "deleted_at" then false
  else if field.IsRelation && field.Relationship = "belongs_to" then false
  else if field.«Type» = "text" || field.«Type» = "datatypes.JSON"
      || field.«Type» = "json.RawMessage" then false
  else if strContains fieldName "content" || strContains fieldName "description" then false
  else if field.IsFile || field.IsImage || field.IsAttachment then false
  else true

/-- Embeds `IsNullableField` from `utils/nuxt.go`: pointer, time and JSON
types are nullable. -/
def IsNullableField (field : Field) : Bool :=
  if strStartsWith field.«Type» "*" then true
  else if field.«Type» = "time.Time" then true
  else if field.«Type» = "datatypes.JSON" || field.«Type» = "json.RawMessage" then true
  else false

/-- Embeds `GetDefaultValue` from `utils/nuxt.go`: the TypeScript default
literal for a field.  Note the substring tests on the Go type string come
before the list-type test. -/
def GetDefaultValue (field : Field) : String :=
  if field.«Type» = "bool" then "false"
  else if strContains field.«Type» "int" || strContains field.«Type» "float" then "0"
  else if field.«Type» = "string" then "\x27\x27"
  else if strStartsWith field.«Type» "[]" then "[]"
  else if field.«Type» = "datatypes.JSON" || field.«Type» = "json.RawMessage" then "\x7b\x7d"
  else if field.«Type» = "time.Time" then "null"
  else "undefined"

/-! ### Registry patcher (`commands/backend/generate.go`)

The patcher's read-modify-write of `app/init.go` is embedded as a pure
function on the file state: `none` means the file does not exist; the second
component of the result reports success (Go: a `nil` error). -/

/-- The exact registration statement for a module. -/
def moduleInitStmt (m : String) : String :=
  "modules[\"" ++ m ++ "\"] = " ++ m ++ ".Init(deps)"

/-- The import line for a module (backend variant, fixed `base` module). -/
def importLineOf (m : String) : String := "\"base/app/" ++ m ++ "\""

/-- Scaffold text before the registration statement (source format string of
`addModuleToAppInit`; braces appear as their escapes). -/
def scaffoldInitPre (m : String) : String :=
  "package app\n\nimport (\n\t\"base/app/" ++ m ++ "\"\n\t\"base/core/module\"\n)\n\n// AppModules implements module.AppModuleProvider interface\ntype AppModules struct\x7b\x7d\n\n// GetAppModules returns the list of app modules to initialize\n// This is the only function that needs to be updated when adding new app modules\nfunc (am *AppModules) GetAppModules(deps module.Dependencies) map[string]module.Module \x7b\n\tmodules := make(map[string]module.Module)\n\n\t// App modules - custom system functionality\n\t"

/-- Scaffold text after the registration statement. -/
def scaffoldInitPost : String :=
  "\n\n\treturn modules\n\x7d\n\n// NewAppModules creates a new AppModules provider\nfunc NewAppModules() *AppModules \x7b\n\treturn &AppModules\x7b\x7d\n\x7d\n"

/-- The minimal `app/init.go` scaffold created when the file is absent,
containing exactly one registration. -/
def scaffoldInit (m : String) : String :=
  scaffoldInitPre m ++ (moduleInitStmt m ++ scaffoldInitPost)

/-- Modelled from the spec: `cases.Title(language.English)` applied to a
module directory name — capitalizes the leading letter (directory names are
single snake-case words). -/
def titleCase (s : String) : String := String.mk (capitalizeWord s.data)

/-- Modelled from the spec: `utils.AddImport` (its defining file is not in
the corpus) inserts a new import line, deduplicated against existing imports;
the model inserts right after the `import (` opener and reports whether it
changed anything. -/
def AddImport (content importLine : String) : String × Bool :=
  if strContains content importLine then (content, false)
  else
    match strFindIdx content "import (" with
    | none => (content, false)
    | some i =>
      (strInsertAt content (i + "import (".length) ("\n\t" ++ importLine), true)

/-- Embeds `addModuleToAppInit` from `commands/backend/generate.go`: create
the scaffold when the file is absent; no-op when the exact registration line
is present; otherwise add the import, find the `return modules` anchor
(aborting, file unchanged, when it is missing) and insert the registration
statement before it.  Go computes `insertPoint` as `returnIndex - 1` on
`int`; the model's `Nat` subtraction clamps at 0, which differs only in the
impossible case of the anchor sitting at offset 0. -/
def addModuleToAppInit (moduleName : String) (st : Option String) :
    Option String × Bool :=
  match st with
  | none => (some (scaffoldInit moduleName), true)
  | some content =>
    let moduleInit := moduleInitStmt moduleName
    if strContains content moduleInit then (some content, true)
    else
      let c1 := (AddImport content (importLineOf moduleName)).1
      match strFindIdx c1 "return modules" with
      | none => (some content, false)
      | some returnIndex =>
        let insertPoint := returnIndex - 1
        let moduleInitLine :=
          "\n\t// " ++ titleCase moduleName ++ " module\n\t" ++ (moduleInit ++ "\n")
        (some (strInsertAt c1 insertPoint moduleInitLine), true)

/-! ### Backend generation pipeline (`commands/backend/generate.go`) -/

/-- Result of one backend generation run: the artifact files written, the
final registry-file state and the warnings surfaced to the caller. -/
structure GenResult where
  artifacts : List String
  initFile : Option String
  warnings : List String
  deriving Repr, DecidableEq

/-- The five artifact files `generateBackendModule` writes, in call order
(model, service, controller, module, validator). -/
def backendArtifacts (naming : NamingConvention) : List String :=
  [ "app/models/" ++ naming.ModelSnake ++ ".go"
  , "app/" ++ naming.DirName ++ "/service.go"
  , "app/" ++ naming.DirName ++ "/controller.go"
  , "app/" ++ naming.DirName ++ "/module.go"
  , "app/" ++ naming.DirName ++ "/validator.go" ]

/-- Embeds `generateBackendModule` from `commands/backend/generate.go` at the
artifact level: the five template renders happen unconditionally before the
registry patch (the render engine and the best-effort formatter invocations
are external collaborators); a failed patch leaves the registry file as it
was and surfaces a warning plus manual-patch instructions, matching the
source's `PrintWarning`/`PrintInfo` pair. -/
def generateBackendModule (modelName : String) (fieldDefs : List String)
    (initFile : Option String) : GenResult :=
  let naming := NewNamingConvention modelName
  let _td := NewTemplateData naming.Model fieldDefs
  let res := addModuleToAppInit naming.DirName initFile
  { artifacts := backendArtifacts naming
    initFile := res.1
    warnings :=
      if res.2 then []
      else
        [ "Could not add module to app/init.go"
        , "Manually add to app/init.go: " ++ moduleInitStmt naming.DirName ] }

/-! ### Display-field lookup (`commands/frontend/generate.go`) -/

/-- A file system snapshot for the lookup: path to file lines. -/
def lookupFS : List (String × List String) → String → Option (List String)
  | [], _ => none
  | (p, ls) :: t, q => if p = q then some ls else lookupFS t q

/-- The related module's generated type file path
(`filepath.Join(adminPath, "modules", PluralSnake, "types", ModelSnake+".ts")`). -/
def relatedTypePath (adminPath related : String) : String :=
  let n := NewNamingConvention related
  adminPath ++ "/modules/" ++ n.PluralSnake ++ "/types/" ++ n.ModelSnake ++ ".ts"

/-- The interface header line fragment the scanner looks for. -/
def interfaceHeader (model : String) : String :=
  "export interface " ++ model ++ " \x7b"

/-- Regex whitespace class `\s` of the scanner's pattern. -/
def isRegexSpace (c : Char) : Bool :=
  c = ' ' || c = '\t' || c = '\n' || c = '\x0c' || c = '\r'

/-- Go `unicode.IsSpace` restricted to ASCII, for `strings.TrimSpace`. -/
def isGoSpace (c : Char) : Bool :=
  c = ' ' || c = '\t' || c = '\n' || c = '\x0b' || c = '\x0c' || c = '\r'

/-- Embeds `strings.TrimSpace`. -/
def strTrim (s : String) : String :=
  String.mk (((s.data.dropWhile isGoSpace).reverse.dropWhile isGoSpace).reverse)

/-- First character of an identifier in the scanner's regex. -/
def isIdentStart (c : Char) : Bool := c.isAlpha || c = '_'

/-- Later characters of an identifier in the scanner's regex. -/
def isIdentChar (c : Char) : Bool := c.isAlphanum || c = '_'

/-- Embeds the scanner's regex
`^\s*([a-zA-Z_][a-zA-Z0-9_]*)\??:\s*string` as a matcher returning the
captured identifier. -/
def matchStringField (line : String) : Option String :=
  match line.data.dropWhile isRegexSpace with
  | [] => none
  | c :: rest =>
    if isIdentStart c then
      let identRest := rest.takeWhile isIdentChar
      let after := rest.dropWhile isIdentChar
      let after2 := match after with
        | '?' :: r => r
        | r => r
      match after2 with
      | ':' :: r =>
        if listStartsWith "string".data (r.dropWhile isRegexSpace) then
          some (String.mk (c :: identRest))
        else none
      | _ => none
    else none

/-- Embeds the skip test of `getRelatedModelDisplayField`: identifier,
audit-timestamp and comment lines are never display-field candidates. -/
def isSkippedLine (l : String) : Bool :=
  strContains l "id:" || strContains l "created_at" || strContains l "updated_at"
    || strContains l "deleted_at" || strStartsWith (strTrim l) "//"

/-- Embeds the scanner loop of `getRelatedModelDisplayField`: enter the
interface on its header line, stop at the closing brace line, skip
identifier/audit/comment lines, and return the first regex match; fall back
to `"name"`. -/
def scanLines (model : String) : List String → Bool → String
  | [], _ => "name"
  | l :: ls, inI =>
    if strContains l (interfaceHeader model) then scanLines model ls true
    else if inI then
      if strTrim l = "\x7d" then "name"
      else if isSkippedLine l then scanLines model ls true
      else
        match matchStringField l with
        | some x => x
        | none => scanLines model ls true
    else scanLines model ls false

/-- Embeds `getRelatedModelDisplayField` from
`commands/frontend/generate.go`: read the related module's generated type
file and extract its first matching string-typed member; any failure(mode)
falls back to the fixed label `"name"`. -/
def getRelatedModelDisplayField (fs : List (String × List String))
    (adminPath relatedModelName : String) : String :=
  let relatedNaming := NewNamingConvention relatedModelName
  match lookupFS fs (relatedTypePath adminPath relatedModelName) with
  | none => "name"
  | some lines => scanLines relatedNaming.Model lines false

/-- Specification-side description of the lookup, written from the claim's
words: within the region of lines after the related interface's header and
before its closing brace line, the first non-identifier, non-audit,
non-comment line that declares a string-typed member gives the display field;
header re-occurrences inside the region are not candidates. -/
def specDisplayField (model : String) (lines : List String) : Option String :=
  let region :=
    (((lines.dropWhile (fun l => ! strContains l (interfaceHeader model))).drop 1).takeWhile
      (fun l => strContains l (interfaceHeader model) || ! decide (strTrim l = "\x7d")))
  (region.filterMap (fun l =>
    if strContains l (interfaceHeader model) || isSkippedLine l then none
    else matchStringField l)).head?

/-! ### Supporting lemmas for the claims -/

theorem containsSub_self (n : List Char) : containsSub n n = true := by
  have h := containsSub_self_append n []
  rwa [List.append_nil] at h

/-- A declaration token of the three-part form `name:kind:related`. -/
def mkDecl (name kind related : String) : String :=
  name ++ ":" ++ kind ++ ":" ++ related

theorem mkDecl_data (name kind related : String) :
    (mkDecl name kind related).data
      = name.data ++ ':' :: (kind.data ++ ':' :: related.data) := by
  simp only [mkDecl, strData_append]
  simp

theorem goSplit_mkDecl (name kind related : String)
    (hn : ':' ∉ name.data) (hk : ':' ∉ kind.data) (hr : ':' ∉ related.data) :
    goSplitColon (mkDecl name kind related) = [name, kind, related] := by
  rw [goSplitColon, mkDecl_data, splitChars_append ':' name.data _ hn,
    splitChars_append ':' kind.data _ hk, splitChars_nosep ':' related.data hr]
  simp [strMk_data]

theorem mkDecl_contains_colon (name kind related : String) :
    strContains (mkDecl name kind related) ":" = true := by
  rw [strContains, mkDecl_data]
  have h1 : (":" : String).data = [':'] := rfl
  rw [h1]
  exact containsSub_append_right _ _ _
    (by simpa using containsSub_self_append [':'] (kind.data ++ ':' :: related.data))

theorem updateComputedProperties_Fields (td : TemplateData) (f : Field) :
    (updateComputedProperties td f).Fields = td.Fields := by
  simp only [updateComputedProperties, apply_ite TemplateData.Fields, ite_self]

theorem foldComputed_Fields (defs : List String) (td : TemplateData) :
    (defs.foldl (fun td d => updateComputedProperties td (ParseField d)) td).Fields
      = td.Fields := by
  induction defs generalizing td with
  | nil => rfl
  | cons d ds ih => rw [List.foldl_cons, ih, updateComputedProperties_Fields]

theorem addStandardImports_Fields (td : TemplateData) :
    (addStandardImports td).Fields = td.Fields := rfl

theorem NewTemplateData_Fields (m : String) (defs : List String) :
    (NewTemplateData m defs).Fields = compileAll defs := by
  rw [NewTemplateData, addStandardImports_Fields, foldComputed_Fields]

/-- The field predicate that drives `HasSoftDelete`. -/
def isSoftDeleteField (f : Field) : Bool :=
  decide (f.«Type» = "time.Time") && decide (f.Name = "DeletedAt")

/-- The field predicate that drives `HasTimestamps`. -/
def isTimestampField (f : Field) : Bool :=
  decide (f.«Type» = "time.Time")
    && (decide (f.Name = "CreatedAt") || decide (f.Name = "UpdatedAt"))

theorem updateComputedProperties_HasSoftDelete (td : TemplateData) (f : Field) :
    (updateComputedProperties td f).HasSoftDelete
      = (td.HasSoftDelete || isSoftDeleteField f) := by
  simp only [updateComputedProperties, apply_ite TemplateData.HasSoftDelete,
    ite_self, isSoftDeleteField]
  split_ifs <;> simp_all

theorem updateComputedProperties_HasTimestamps (td : TemplateData) (f : Field) :
    (updateComputedProperties td f).HasTimestamps
      = (td.HasTimestamps || isTimestampField f) := by
  simp only [updateComputedProperties, apply_ite TemplateData.HasTimestamps,
    ite_self, isTimestampField]
  split_ifs <;> simp_all

theorem foldComputed_HasSoftDelete (defs : List String) (td : TemplateData) :
    (defs.foldl (fun td d => updateComputedProperties td (ParseField d)) td).HasSoftDelete
      = (td.HasSoftDelete || defs.any (fun d => isSoftDeleteField (ParseField d))) := by
  induction defs generalizing td with
  | nil => simp
  | cons d ds ih =>
    rw [List.foldl_cons, ih, updateComputedProperties_HasSoftDelete]
    simp [Bool.or_assoc]

theorem foldComputed_HasTimestamps (defs : List String) (td : TemplateData) :
    (defs.foldl (fun td d => updateComputedProperties td (ParseField d)) td).HasTimestamps
      = (td.HasTimestamps || defs.any (fun d => isTimestampField (ParseField d))) := by
  induction defs generalizing td with
  | nil => simp
  | cons d ds ih =>
    rw [List.foldl_cons, ih, updateComputedProperties_HasTimestamps]
    simp [Bool.or_assoc]

theorem TrimIdSuffix_append_Id (s : String) : TrimIdSuffix (s ++ "Id") = s := by
  have hend : strEndsWith (s ++ "Id") "Id" = true := by
    rw [strEndsWith, strData_append, List.reverse_append]
    exact listStartsWith_self_append _ _
  rw [TrimIdSuffix, if_pos hend, strData_append]
  rw [show ("Id" : String).data = ['I', 'd'] from rfl, List.length_append]
  rw [show s.data.length + (['I', 'd'] : List Char).length - 2 = s.data.length from by
    simp]
  rw [List.take_left]

theorem ParseField_belongsTo (name X : String)
    (hn : ':' ∉ name.data) (hx : ':' ∉ X.data) :
    ParseField (mkDecl name "belongsTo" X) =
      { Name := ToPascalCase name ++ "Id"
        «Type» := "*uint"
        JSONTag := ToSnakeCase name ++ "_id"
        JSONName := ToSnakeCase name ++ "_id"
        DBName := ToSnakeCase name ++ "_id"
        Relationship := "belongs_to"
        RelatedModel := ToPascalCase X
        IsRelation := true
        RelationType := "belongs_to" } := by
  have hsplit := goSplit_mkDecl name "belongsTo" X hn (by decide) hx
  unfold ParseField
  rw [hsplit]
  dsimp only
  rw [if_neg (by simp), if_pos (by exact ⟨by simp, rfl⟩)]
  simp

theorem ParseField_media (name k : String)
    (hn : ':' ∉ name.data) (hk : ':' ∉ k.data) :
    ParseField (mkDecl name "media" k) =
      { Name := ToPascalCase name
        «Type» := "media.Media"
        JSONTag := ToSnakeCase name
        JSONName := ToSnakeCase name
        DBName := ToSnakeCase name
        GORM := "gorm:\"foreignKey:" ++ (ToPascalCase name ++ "Id") ++ "\""
        GORMTag := "gorm:\"foreignKey:" ++ (ToPascalCase name ++ "Id") ++ "\""
        IsMedia := true
        MediaFKField := ToPascalCase name ++ "Id"
        MediaFKJSONName := ToSnakeCase (ToPascalCase name ++ "Id") } := by
  have hsplit := goSplit_mkDecl name "media" k hn (by decide) hk
  unfold ParseField
  rw [hsplit]
  dsimp only
  rw [if_pos (by simp)]
  simp

theorem parseFieldDef_unknown_kind (name k X : String)
    (hn : ':' ∉ name.data) (hk : ':' ∉ k.data) (hx : ':' ∉ X.data)
    (hunk : IsRelationshipType k = false) :
    parseFieldDef (mkDecl name k X) =
      { Name := ToPascalCase name
        JSONTag := ToSnakeCase name
        JSONName := ToSnakeCase name
        DBName := ToSnakeCase name } := by
  have hsplit := goSplit_mkDecl name k X hn hk hx
  have hcolon := mkDecl_contains_colon name k X
  unfold parseFieldDef
  rw [hsplit]
  dsimp only
  simp only [List.length_cons, List.length_nil, List.headD, List.getD,
    List.getElem?_cons_zero, List.getElem?_cons_succ, Option.getD_some]
  norm_num [hsplit, hcolon, hunk]

/-! ### Claim theorems -/

/-- C9: naming derivation is idempotent — deriving the naming convention from
the singular machine-identifier form (`ModelSnake`) produced by a prior
derivation of `s` yields the same record as deriving directly from `s`, for
every input string. -/
theorem naming_derivation_idempotent (s : String) :
    NewNamingConvention ((NewNamingConvention s).ModelSnake)
      = NewNamingConvention s := by
  show namingFrom (ToSnakeCase (ToSnakeCase s)) = namingFrom (ToSnakeCase s)
  rw [ToSnakeCase_idem]

/-- C10: for every module name and declaration list, `HasSoftDelete` is true
iff some declared field resolves to Go type `time.Time` with name exactly
`DeletedAt`, and `HasTimestamps` is true iff some declared field resolves to
`time.Time` with name exactly `CreatedAt` or `UpdatedAt`; a datetime field
with any other name (for example `published_at:datetime`) never sets either
flag. -/
theorem softdelete_timestamps_flags_iff (m : String) (defs : List String) :
    ((NewTemplateData m defs).HasSoftDelete
        = defs.any (fun d => isSoftDeleteField (ParseField d)))
    ∧ ((NewTemplateData m defs).HasTimestamps
        = defs.any (fun d => isTimestampField (ParseField d))) := by
  constructor
  · show (addStandardImports _).HasSoftDelete = _
    rw [show ∀ td, (addStandardImports td).HasSoftDelete = td.HasSoftDelete from fun _ => rfl,
      foldComputed_HasSoftDelete]
    simp
  · show (addStandardImports _).HasTimestamps = _
    rw [show ∀ td, (addStandardImports td).HasTimestamps = td.HasTimestamps from fun _ => rfl,
      foldComputed_HasTimestamps]
    simp

/-- C1: a `belongs_to` declaration `name:belongsTo:X` compiles, wherever it
occurs in the declaration list, to exactly two consecutive fields and nothing
else — first the nullable foreign-key scalar named `<Name>Id` (JSON key
`<name>_id`, Go type `*uint`), then the companion relation-object field whose
name is the foreign-key field's name with the identifier suffix stripped
(`<Name>`). -/
theorem belongsTo_decl_compiles_to_fk_and_object
    (modelName : String) (pre post : List String) (name X : String)
    (hn : ':' ∉ name.data) (hx : ':' ∉ X.data) :
    (NewTemplateData modelName (pre ++ mkDecl name "belongsTo" X :: post)).Fields
        = compileAll pre
          ++ ([ParseField (mkDecl name "belongsTo" X),
               relationFieldOf (ParseField (mkDecl name "belongsTo" X))]
             ++ compileAll post)
    ∧ (ParseField (mkDecl name "belongsTo" X)).Name = ToPascalCase name ++ "Id"
    ∧ (ParseField (mkDecl name "belongsTo" X)).JSONName = ToSnakeCase name ++ "_id"
    ∧ (ParseField (mkDecl name "belongsTo" X)).«Type» = "*uint"
    ∧ IsNullableField (ParseField (mkDecl name "belongsTo" X)) = true
    ∧ (ParseField (mkDecl name "belongsTo" X)).IsRelation = true
    ∧ (ParseField (mkDecl name "belongsTo" X)).RelationType = "belongs_to"
    ∧ (relationFieldOf (ParseField (mkDecl name "belongsTo" X))).Name
        = TrimIdSuffix (ParseField (mkDecl name "belongsTo" X)).Name
    ∧ (relationFieldOf (ParseField (mkDecl name "belongsTo" X))).Name
        = ToPascalCase name
    ∧ (relationFieldOf (ParseField (mkDecl name "belongsTo" X))).RelationType
        = "belongs_to_object"
    ∧ (relationFieldOf (ParseField (mkDecl name "belongsTo" X))).RelatedModel
        = ToPascalCase X := by
  have hP := ParseField_belongsTo name X hn hx
  have hcd : compileDef (mkDecl name "belongsTo" X)
      = [ParseField (mkDecl name "belongsTo" X),
         relationFieldOf (ParseField (mkDecl name "belongsTo" X))] := by
    unfold compileDef
    rw [hP]
    simp
  refine ⟨?_, by rw [hP], by rw [hP], by rw [hP], by rw [hP]; rfl, by rw [hP],
    by rw [hP], rfl, ?_, rfl, by rw [hP]; rfl⟩
  · rw [NewTemplateData_Fields, compileAll_append,
      show compileAll (mkDecl name "belongsTo" X :: post)
          = compileDef (mkDecl name "belongsTo" X) ++ compileAll post from rfl, hcd]
  · show TrimIdSuffix (ParseField (mkDecl name "belongsTo" X)).Name = ToPascalCase name
    rw [hP]
    exact TrimIdSuffix_append_Id (ToPascalCase name)

/-- Witness for C1 at the concrete declaration `parent:belongsTo:Region` in
module `shop`. -/
theorem belongsTo_decl_compiles_to_fk_and_object_witness :
    (':' ∉ "parent".data) ∧ (':' ∉ "Region".data)
    ∧ ((NewTemplateData "shop" ([] ++ mkDecl "parent" "belongsTo" "Region" :: [])).Fields
        = compileAll []
          ++ ([ParseField (mkDecl "parent" "belongsTo" "Region"),
               relationFieldOf (ParseField (mkDecl "parent" "belongsTo" "Region"))]
             ++ compileAll [])
      ∧ (ParseField (mkDecl "parent" "belongsTo" "Region")).Name
          = ToPascalCase "parent" ++ "Id"
      ∧ (ParseField (mkDecl "parent" "belongsTo" "Region")).JSONName
          = ToSnakeCase "parent" ++ "_id"
      ∧ (ParseField (mkDecl "parent" "belongsTo" "Region")).«Type» = "*uint"
      ∧ IsNullableField (ParseField (mkDecl "parent" "belongsTo" "Region")) = true
      ∧ (ParseField (mkDecl "parent" "belongsTo" "Region")).IsRelation = true
      ∧ (ParseField (mkDecl "parent" "belongsTo" "Region")).RelationType = "belongs_to"
      ∧ (relationFieldOf (ParseField (mkDecl "parent" "belongsTo" "Region"))).Name
          = TrimIdSuffix (ParseField (mkDecl "parent" "belongsTo" "Region")).Name
      ∧ (relationFieldOf (ParseField (mkDecl "parent" "belongsTo" "Region"))).Name
          = ToPascalCase "parent"
      ∧ (relationFieldOf (ParseField (mkDecl "parent" "belongsTo" "Region"))).RelationType
          = "belongs_to_object"
      ∧ (relationFieldOf (ParseField (mkDecl "parent" "belongsTo" "Region"))).RelatedModel
          = ToPascalCase "Region") :=
  ⟨by decide, by decide,
    belongsTo_decl_compiles_to_fk_and_object "shop" [] [] "parent" "Region"
      (by decide) (by decide)⟩

/-- C2: a media declaration `name:media:kind` compiles, wherever it occurs,
to exactly two fields and nothing else — first a nullable foreign-key field
whose identifier is deterministically `<Name>Id` with Go type `*uint`, then
the media relation field itself. -/
theorem media_decl_compiles_to_nullable_fk_and_media
    (modelName : String) (pre post : List String) (name k : String)
    (hn : ':' ∉ name.data) (hk : ':' ∉ k.data) :
    (NewTemplateData modelName (pre ++ mkDecl name "media" k :: post)).Fields
        = compileAll pre
          ++ ([mediaFKFieldOf (ParseField (mkDecl name "media" k)),
               ParseField (mkDecl name "media" k)]
             ++ compileAll post)
    ∧ (mediaFKFieldOf (ParseField (mkDecl name "media" k))).Name
        = ToPascalCase name ++ "Id"
    ∧ (mediaFKFieldOf (ParseField (mkDecl name "media" k))).«Type» = "*uint"
    ∧ IsNullableField (mediaFKFieldOf (ParseField (mkDecl name "media" k))) = true
    ∧ (ParseField (mkDecl name "media" k)).IsMedia = true := by
  have hP := ParseField_media name k hn hk
  have hcd : compileDef (mkDecl name "media" k)
      = [mediaFKFieldOf (ParseField (mkDecl name "media" k)),
         ParseField (mkDecl name "media" k)] := by
    unfold compileDef
    rw [hP]
    simp [show ("" : String) ≠ "belongs_to" from by decide]
  refine ⟨?_, by rw [hP]; rfl, rfl, rfl, by rw [hP]⟩
  rw [NewTemplateData_Fields, compileAll_append,
    show compileAll (mkDecl name "media" k :: post)
        = compileDef (mkDecl name "media" k) ++ compileAll post from rfl, hcd]

/-- Witness for C2 at the concrete declaration `avatar:media:image` in module
`customer`. -/
theorem media_decl_compiles_to_nullable_fk_and_media_witness :
    (':' ∉ "avatar".data) ∧ (':' ∉ "image".data)
    ∧ ((NewTemplateData "customer" ([] ++ mkDecl "avatar" "media" "image" :: [])).Fields
        = compileAll []
          ++ ([mediaFKFieldOf (ParseField (mkDecl "avatar" "media" "image")),
               ParseField (mkDecl "avatar" "media" "image")]
             ++ compileAll [])
      ∧ (mediaFKFieldOf (ParseField (mkDecl "avatar" "media" "image"))).Name
          = ToPascalCase "avatar" ++ "Id"
      ∧ (mediaFKFieldOf (ParseField (mkDecl "avatar" "media" "image"))).«Type» = "*uint"
      ∧ IsNullableField (mediaFKFieldOf (ParseField (mkDecl "avatar" "media" "image"))) = true
      ∧ (ParseField (mkDecl "avatar" "media" "image")).IsMedia = true) :=
  ⟨by decide, by decide,
    media_decl_compiles_to_nullable_fk_and_media "customer" [] [] "avatar" "image"
      (by decide) (by decide)⟩

/-- C5 counterexample: for the declaration `bar:foo:Baz`, whose kind `foo` is
not in the relationship alias table, the parser indeed rejects the relation
interpretation — but the resulting field's type is the empty string, not a
well-defined scalar fallback type as the claim states. -/
theorem unknown_relation_kind_counterexample :
    (parseFieldDef "bar:foo:Baz").IsRelation = false
    ∧ (parseFieldDef "bar:foo:Baz").«Type» = ""
    ∧ (parseFieldDef "bar:foo:Baz").«Type» ≠ GetGoTypeFromAlias "foo" := by
  refine ⟨rfl, rfl, ?_⟩
  decide

/-- C5 amended: for every multi-part declaration `name:kind:related` whose
kind is not in the relationship-kind alias table, the parser rejects the
relation interpretation without aborting (`IsRelation` is false and the name
is still resolved), but it assigns no fallback type: the field's type is left
empty. -/
theorem unknown_relation_kind_rejected_without_fallback_type
    (name k X : String)
    (hn : ':' ∉ name.data) (hk : ':' ∉ k.data) (hx : ':' ∉ X.data)
    (hunk : IsRelationshipType k = false) :
    (parseFieldDef (mkDecl name k X)).IsRelation = false
    ∧ (parseFieldDef (mkDecl name k X)).«Type» = ""
    ∧ (parseFieldDef (mkDecl name k X)).Name = ToPascalCase name := by
  have h := parseFieldDef_unknown_kind name k X hn hk hx hunk
  exact ⟨by rw [h], by rw [h], by rw [h]⟩

/-- Witness for the amended C5 at the declaration `qty:qux:Item`. -/
theorem unknown_relation_kind_rejected_without_fallback_type_witness :
    (':' ∉ "qty".data) ∧ (':' ∉ "qux".data) ∧ (':' ∉ "Item".data)
    ∧ IsRelationshipType "qux" = false
    ∧ ((parseFieldDef (mkDecl "qty" "qux" "Item")).IsRelation = false
      ∧ (parseFieldDef (mkDecl "qty" "qux" "Item")).«Type» = ""
      ∧ (parseFieldDef (mkDecl "qty" "qux" "Item")).Name = ToPascalCase "qty") :=
  ⟨by decide, by decide, by decide, by decide,
    unknown_relation_kind_rejected_without_fallback_type "qty" "qux" "Item"
      (by decide) (by decide) (by decide) (by decide)⟩

/-- C6: evaluation at the failing input `points:hasMany:Point` — the resolved
field is the non-nullable list type `[]*Point`, as the claim states, but its
presentation default value is `"0"` rather than the empty list, because
`GetDefaultValue` tests for the substring `int` in the Go type string before
testing for the list prefix, and `[]*Point` contains `int`. -/
theorem hasMany_related_model_default_not_empty_list :
    (parseFieldDef "points:hasMany:Point").«Type» = "[]*Point"
    ∧ IsNullableField (parseFieldDef "points:hasMany:Point") = false
    ∧ GetDefaultValue (parseFieldDef "points:hasMany:Point") = "0"
    ∧ GetDefaultValue (parseFieldDef "points:hasMany:Point") ≠ "[]" := by
  exact ⟨rfl, rfl, rfl, by decide⟩

/-- C7 counterexample: for the module `customer` with declaration
`avatar:media:image`, both emitted fields — the foreign key `avatar_id` and
the media field `avatar` — have `ShouldShowInTable` true, contradicting the
claim that both are excluded from list-view visibility. -/
theorem media_fields_visible_in_table_counterexample :
    ((NewTemplateData "customer" ["avatar:media:image"]).Fields.map ShouldShowInTable)
      = [true, true] := by
  rfl

/-- C7 amended: for the module `customer` with declaration
`avatar:media:image`, the compiler emits the nullable foreign key `avatar_id`
(`*uint`) and the media field `avatar` (`media.Media`), and the presentation
adapter keeps both visible in the table: `ShouldShowInTable` is true for
both (neither version of the adapter tests the media flags). -/
theorem media_fields_visible_in_table :
    ((NewTemplateData "customer" ["avatar:media:image"]).Fields.map
        (fun f => f.JSONName)) = ["avatar_id", "avatar"]
    ∧ ((NewTemplateData "customer" ["avatar:media:image"]).Fields.map
        (fun f => f.«Type»)) = ["*uint", "media.Media"]
    ∧ ((NewTemplateData "customer" ["avatar:media:image"]).Fields.map
        ShouldShowInTable) = [true, true] := by
  exact ⟨rfl, rfl, rfl⟩

theorem strContains_scaffold (m : String) :
    strContains (scaffoldInit m) (moduleInitStmt m) = true := by
  rw [strContains, scaffoldInit, strData_append, strData_append]
  exact containsSub_append_right _ _ _
    (containsSub_append_left _ _ _ (containsSub_self _))

theorem containsSub_strInsertAt (c1 ins mid : String) (p : Nat)
    (h : containsSub ins.data mid.data = true) :
    strContains (strInsertAt c1 p ins) mid = true := by
  rw [strContains, strInsertAt]
  show containsSub (c1.data.take p ++ ins.data ++ c1.data.drop p) mid.data = true
  exact containsSub_middle _ _ _ _ h

theorem containsSub_moduleInitLine (m : String) :
    containsSub
      ("\n\t// " ++ titleCase m ++ " module\n\t" ++ (moduleInitStmt m ++ "\n")).data
      (moduleInitStmt m).data = true := by
  rw [strData_append]
  exact containsSub_append_right _ _ _
    (by rw [strData_append]; exact containsSub_append_left _ _ _ (containsSub_self _))

/-- C3: the registry patcher is idempotent for every module name and every
starting file state — whatever the first application produced (a fresh
scaffold, an untouched file that already registers the module, an insertion
before the anchor, or an aborted patch), applying the patcher again returns
the identical file state and outcome, because every successful result
contains the exact registration line that short-circuits the next run. -/
theorem addModuleToAppInit_idempotent (m : String) (st : Option String) :
    addModuleToAppInit m (addModuleToAppInit m st).1 = addModuleToAppInit m st := by
  cases st with
  | none =>
    show addModuleToAppInit m (some (scaffoldInit m)) = (some (scaffoldInit m), true)
    simp only [addModuleToAppInit]
    rw [if_pos (strContains_scaffold m)]
  | some c =>
    by_cases hmi : strContains c (moduleInitStmt m) = true
    · have h1 : addModuleToAppInit m (some c) = (some c, true) := by
        simp only [addModuleToAppInit]
        rw [if_pos hmi]
      rw [h1]
      exact h1
    · cases hfind : strFindIdx ((AddImport c (importLineOf m)).1) "return modules" with
      | none =>
        have h1 : addModuleToAppInit m (some c) = (some c, false) := by
          simp only [addModuleToAppInit]
          rw [if_neg (by simp [hmi]), hfind]
        rw [h1]
        exact h1
      | some idx =>
        have h1 : addModuleToAppInit m (some c)
            = (some (strInsertAt (AddImport c (importLineOf m)).1 (idx - 1)
                ("\n\t// " ++ titleCase m ++ " module\n\t" ++ (moduleInitStmt m ++ "\n"))),
               true) := by
          simp only [addModuleToAppInit]
          rw [if_neg (by simp [hmi]), hfind]
        rw [h1]
        simp only [addModuleToAppInit]
        rw [if_pos (containsSub_strInsertAt _ _ _ _ (containsSub_moduleInitLine m))]


theorem listStartsWith_iff (n h : List Char) :
    listStartsWith n h = true ↔ ∃ t, h = n ++ t := by
  induction n generalizing h with
  | nil => simp [listStartsWith]
  | cons a as ih =>
    cases h with
    | nil => simp [listStartsWith]
    | cons b bs =>
      rw [listStartsWith]
      by_cases hab : a = b
      · subst hab
        rw [if_pos rfl, ih]
        constructor
        · rintro ⟨t, rfl⟩
          exact ⟨t, rfl⟩
        · rintro ⟨t, ht⟩
          injection ht with h1 h2
          exact ⟨t, h2⟩
      · rw [if_neg hab]
        constructor
        · intro hfalse
          cases hfalse
        · rintro ⟨t, ht⟩
          injection ht with h1 h2
          exact absurd h1.symm hab

theorem containsSub_iff (xs needle : List Char) :
    containsSub xs needle = true ↔ ∃ u v, xs = u ++ (needle ++ v) := by
  induction xs with
  | nil =>
    constructor
    · intro h
      rw [containsSub, findIdxSub] at h
      split at h
      · rename_i hsw
        obtain ⟨t, ht⟩ := (listStartsWith_iff needle []).mp hsw
        rcases List.append_eq_nil.mp ht.symm with ⟨hn, _⟩
        exact ⟨[], [], by simp [hn]⟩
      · simp at h
    · rintro ⟨u, v, huv⟩
      rcases List.append_eq_nil.mp huv.symm with ⟨rfl, h2⟩
      rcases List.append_eq_nil.mp h2 with ⟨rfl, rfl⟩
      rfl
  | cons c t ih =>
    rw [containsSub_cons]
    constructor
    · intro h
      rcases Bool.or_eq_true_iff.mp h with hsw | hrec
      · obtain ⟨tt, htt⟩ := (listStartsWith_iff _ _).mp hsw
        exact ⟨[], tt, by simpa using htt⟩
      · obtain ⟨u, v, huv⟩ := ih.mp hrec
        exact ⟨c :: u, v, by rw [List.cons_append, ← huv]⟩
    · rintro ⟨u, v, huv⟩
      cases u with
      | nil =>
        apply Bool.or_eq_true_iff.mpr
        left
        exact (listStartsWith_iff _ _).mpr ⟨v, by simpa using huv⟩
      | cons a us =>
        apply Bool.or_eq_true_iff.mpr
        right
        injection huv with h1 h2
        exact ih.mpr ⟨us, v, h2⟩

theorem containsSub_insert_false
    (A B C needle : List Char)
    (hBhead : ∃ bt, B = '\n' :: bt)
    (hBlast : ∃ bi, B = bi ++ ['"'])
    (hBspace : ' ' ∉ B)
    (hNnl : '\n' ∉ needle) (hNq : '"' ∉ needle) (hNsp : ' ' ∈ needle)
    (hAC : containsSub (A ++ C) needle = false) :
    containsSub (A ++ B ++ C) needle = false := by
  have hnotA : ¬ ∃ u v, A = u ++ (needle ++ v) := by
    rintro ⟨u, v, rfl⟩
    have h1 : containsSub (u ++ (needle ++ v)) needle = true :=
      (containsSub_iff _ _).mpr ⟨u, v, rfl⟩
    have h2 := containsSub_append_left _ C _ h1
    cases h2.symm.trans hAC
  have hnotC : ¬ ∃ u v, C = u ++ (needle ++ v) := by
    rintro ⟨u, v, rfl⟩
    have h1 : containsSub (u ++ (needle ++ v)) needle = true :=
      (containsSub_iff _ _).mpr ⟨u, v, rfl⟩
    have h2 := containsSub_append_right A _ _ h1
    cases h2.symm.trans hAC
  have hnlB : '\n' ∈ B := by
    obtain ⟨bt, rfl⟩ := hBhead
    exact List.mem_cons_self _ _
  rw [Bool.eq_false_iff]
  intro hcon
  obtain ⟨u, v, huv⟩ := (containsSub_iff _ _).mp hcon
  rw [List.append_assoc] at huv
  rcases List.append_eq_append_iff.mp huv with ⟨x, hu, hBC⟩ | ⟨y, hA, hnv⟩
  · -- occurrence inside B ++ C at offset x
    rcases List.append_eq_append_iff.mp hBC with ⟨p, hx, hC⟩ | ⟨q, hB, hnv2⟩
    · exact hnotC ⟨p, v, hC⟩
    · -- B = x ++ q and needle ++ v = q ++ C
      rcases List.append_eq_append_iff.mp hnv2 with ⟨w, hq, hv⟩ | ⟨z, hn, hC⟩
      · -- q = needle ++ w : needle inside B
        have : ' ' ∈ B := by
          rw [hB, hq]
          exact List.mem_append_right _ (List.mem_append_left _ hNsp)
        exact hBspace this
      · -- needle = q ++ z and C = z ++ v
        cases q with
        | nil =>
          simp only [List.nil_append] at hn
          exact hnotC ⟨[], v, by rw [hC, hn, List.nil_append]⟩
        | cons qc qt =>
          -- q is a nonempty suffix of B: its last element is B's last, a quote
          obtain ⟨bi, hBlast⟩ := hBlast
          rcases List.eq_nil_or_concat (qc :: qt) with habs | ⟨L, b, hLb⟩
          · cases habs
          · have hform : (x ++ L) ++ [b] = bi ++ ['"'] := by
              rw [List.append_assoc, ← List.concat_eq_append, ← hLb, ← hB]
              exact hBlast
            have hb : b = '"' := by
              have h6 := congrArg List.getLast? hform
              rw [List.getLast?_concat, List.getLast?_concat] at h6
              exact Option.some.inj h6
            have hmemq : '"' ∈ qc :: qt := by
              rw [hLb, hb, List.concat_eq_append]
              exact List.mem_append_right _ (List.mem_singleton.mpr rfl)
            have hqB : '"' ∈ needle := by
              rw [hn]
              exact List.mem_append_left _ hmemq
            exact hNq hqB
  · -- A = u ++ y and needle ++ v = y ++ (B ++ C)
    rcases List.append_eq_append_iff.mp hnv with ⟨w, hy, hv⟩ | ⟨z, hn, hBC2⟩
    · exact hnotA ⟨u, w, by rw [hA, hy]⟩
    · cases z with
      | nil =>
        simp only [List.append_nil] at hn
        exact hnotA ⟨u, [], by rw [hA, hn, List.append_nil]⟩
      | cons zc zt =>
        -- z is a nonempty prefix of B ++ C and B starts with a newline
        obtain ⟨bt, hBh⟩ := hBhead
        have hzc : zc = '\n' := by
          have h3 : B ++ C = zc :: (zt ++ v) := by rw [hBC2]; rfl
          rw [hBh] at h3
          injection h3 with h4 h5
          exact h4.symm
        have : '\n' ∈ needle := by
          rw [hn, hzc]
          exact List.mem_append_right _ (List.mem_cons_self _ _)
        exact hNnl this



theorem mem_joinWith {c : Char} (sep : Char) (ws : List (List Char))
    (h : c ∈ joinWith sep ws) : c = sep ∨ ∃ w ∈ ws, c ∈ w := by
  induction ws with
  | nil => simp [joinWith] at h
  | cons w ws ih =>
    cases ws with
    | nil =>
      right
      exact ⟨w, List.mem_cons_self _ _, by simpa [joinWith] using h⟩
    | cons x xs =>
      rw [joinWith] at h
      rcases List.mem_append.mp h with h1 | h2
      · exact Or.inr ⟨w, List.mem_cons_self _ _, h1⟩
      · rcases List.mem_cons.mp h2 with rfl | h3
        · exact Or.inl rfl
        · rcases ih h3 with h4 | ⟨w', hw', hc'⟩
          · exact Or.inl h4
          · exact Or.inr ⟨w', List.mem_cons_of_mem _ hw', hc'⟩

theorem snake_no_space (s : String) : ' ' ∉ (ToSnakeCase s).data := by
  intro hmem
  have h2 : ' ' ∈ joinWith '_' (strWords s) := hmem
  rcases mem_joinWith '_' (strWords s) h2 with h3 | ⟨w, hw, hcw⟩
  · exact absurd h3 (by decide)
  · have hg := (wordsAux_good s.data [] (by simp) w hw).2 ' ' hcw
    exact absurd hg.2 (by decide)

theorem pluralize_no_space (b : String) (hb : ' ' ∉ b.data) :
    ' ' ∉ (Pluralize b).data := by
  rw [Pluralize]
  split_ifs with h1 h2
  · intro hmem
    rw [strData_append] at hmem
    rcases List.mem_append.mp hmem with hx | hy
    · exact hb (List.take_subset _ _ hx)
    · exact absurd hy (by decide)
  · intro hmem
    rw [strData_append] at hmem
    rcases List.mem_append.mp hmem with hx | hy
    · exact hb hx
    · exact absurd hy (by decide)
  · intro hmem
    rw [strData_append] at hmem
    rcases List.mem_append.mp hmem with hx | hy
    · exact hb hx
    · exact absurd hy (by decide)

theorem DirName_no_space (s : String) :
    ' ' ∉ (NewNamingConvention s).DirName.data :=
  pluralize_no_space (ToSnakeCase s) (snake_no_space s)

theorem strContains_eq_false_iff (s sub : String) :
    strContains s sub = false ↔ strFindIdx s sub = none := by
  rw [strContains, strFindIdx]
  cases h : findIdxSub s.data sub.data <;> simp [containsSub, h]

theorem AddImport_preserves_no_anchor (c m : String)
    (h : strContains c "return modules" = false)
    (hm : ' ' ∉ m.data) :
    strContains ((AddImport c (importLineOf m)).1) "return modules" = false := by
  rw [AddImport]
  by_cases hc : strContains c (importLineOf m) = true
  · rw [if_pos hc]
    exact h
  · rw [if_neg hc]
    cases hio : strFindIdx c "import (" with
    | none =>
      exact h
    | some i =>
      show strContains (strInsertAt c _ ("\n\t" ++ importLineOf m)) "return modules" = false
      rw [strContains, strInsertAt]
      show containsSub
        (c.data.take _ ++ ("\n\t" ++ importLineOf m).data ++ c.data.drop _)
        ("return modules" : String).data = false
      apply containsSub_insert_false
      · exact ⟨'\t' :: (importLineOf m).data, by rw [strData_append]; rfl⟩
      · refine ⟨'\n' :: '\t' :: ("\"base/app/" ++ m).data, ?_⟩
        rw [strData_append, importLineOf, strData_append]
        simp
      · intro hsp
        rw [strData_append, importLineOf, strData_append, strData_append] at hsp
        rcases List.mem_append.mp hsp with h1 | h2
        · exact absurd h1 (by decide)
        · rcases List.mem_append.mp h2 with h3 | h4
          · rcases List.mem_append.mp h3 with h5 | h6
            · exact absurd h5 (by decide)
            · exact hm h6
          · exact absurd h4 (by decide)
      · decide
      · decide
      · decide
      · rw [List.take_append_drop]
        exact h

/-- C4: when `app/init.go` exists, does not yet register the module, and
lacks the `return modules` anchor, the registry patch is aborted and the file
is not modified, while the caller still produces every other artifact and
surfaces the failure as a warning with manual-patch instructions. -/
theorem anchor_missing_patch_aborted_generation_succeeds
    (modelName : String) (fieldDefs : List String) (c : String)
    (hmi : strContains c (moduleInitStmt (NewNamingConvention modelName).DirName) = false)
    (hanchor : strContains c "return modules" = false) :
    (generateBackendModule modelName fieldDefs (some c)).initFile = some c
    ∧ (generateBackendModule modelName fieldDefs (some c)).artifacts
        = backendArtifacts (NewNamingConvention modelName)
    ∧ (generateBackendModule modelName fieldDefs (some c)).warnings
        = [ "Could not add module to app/init.go"
          , "Manually add to app/init.go: "
              ++ moduleInitStmt (NewNamingConvention modelName).DirName ] := by
  have hanchor1 := AddImport_preserves_no_anchor c (NewNamingConvention modelName).DirName
    hanchor (DirName_no_space modelName)
  have hfind1 := (strContains_eq_false_iff _ _).mp hanchor1
  have hpatch : addModuleToAppInit (NewNamingConvention modelName).DirName (some c)
      = (some c, false) := by
    simp only [addModuleToAppInit]
    rw [if_neg (by simp [hmi]), hfind1]
  simp [generateBackendModule, hpatch]


/-- Witness for C4: a registry file with no `return modules` anchor and no
existing import section, for module `shop` (directory `shops`). -/
theorem anchor_missing_patch_aborted_generation_succeeds_witness :
    strContains "package app\n"
        (moduleInitStmt (NewNamingConvention "shop").DirName) = false
    ∧ strContains "package app\n" "return modules" = false
    ∧ ((generateBackendModule "shop" [] (some "package app\n")).initFile
        = some "package app\n"
      ∧ (generateBackendModule "shop" [] (some "package app\n")).artifacts
        = backendArtifacts (NewNamingConvention "shop")
      ∧ (generateBackendModule "shop" [] (some "package app\n")).warnings
        = [ "Could not add module to app/init.go"
          , "Manually add to app/init.go: "
              ++ moduleInitStmt (NewNamingConvention "shop").DirName ]) :=
  ⟨by decide, by decide,
    anchor_missing_patch_aborted_generation_succeeds "shop" [] "package app\n"
      (by decide) (by decide)⟩

theorem scanLines_inI_spec (model : String) (ls : List String) :
    scanLines model ls true
      = ((ls.takeWhile (fun l =>
            strContains l (interfaceHeader model) || ! decide (strTrim l = "\x7d"))).filterMap
          (fun l =>
            if strContains l (interfaceHeader model) || isSkippedLine l then none
            else matchStringField l)).head?.getD "name" := by
  induction ls with
  | nil => rfl
  | cons l ls ih =>
    by_cases hhdr : strContains l (interfaceHeader model) = true
    · simp [scanLines, hhdr, List.takeWhile_cons, List.filterMap_cons, ih]
    · by_cases hbrace : strTrim l = "\x7d"
      · simp [scanLines, hhdr, hbrace, List.takeWhile_cons]
      · by_cases hskip : isSkippedLine l = true
        · simp [scanLines, hhdr, hbrace, hskip, List.takeWhile_cons, List.filterMap_cons, ih]
        · cases hmatch : matchStringField l with
          | some x =>
            simp [scanLines, hhdr, hbrace, hskip, hmatch, List.takeWhile_cons,
              List.filterMap_cons]
          | none =>
            simp [scanLines, hhdr, hbrace, hskip, hmatch, List.takeWhile_cons,
              List.filterMap_cons, ih]

theorem scanLines_start_spec (model : String) (ls : List String) :
    scanLines model ls false = (specDisplayField model ls).getD "name" := by
  induction ls with
  | nil => rfl
  | cons l ls ih =>
    by_cases hhdr : strContains l (interfaceHeader model) = true
    · simp [scanLines, hhdr, specDisplayField, List.dropWhile_cons, scanLines_inI_spec]
    · have hspec : specDisplayField model (l :: ls) = specDisplayField model ls := by
        simp [specDisplayField, List.dropWhile_cons, hhdr]
      rw [hspec] at *
      simp [scanLines, hhdr, ih]

/-- C8: the display-field lookup is total and best-effort — for every
file-system state and related-module name it returns exactly the first
non-identifier, non-audit, non-comment string-typed member of the related
interface when the related type file exists and has one (`specDisplayField`),
and the fixed default label `"name"` in every other case (file missing, no
interface, no matching member). -/
theorem display_field_lookup_total_best_effort
    (fs : List (String × List String)) (adminPath related : String) :
    getRelatedModelDisplayField fs adminPath related
      = ((lookupFS fs (relatedTypePath adminPath related)).bind
          (fun lines => specDisplayField (NewNamingConvention related).Model lines)).getD
          "name" := by
  cases hl : lookupFS fs (relatedTypePath adminPath related) with
  | none => simp [getRelatedModelDisplayField, hl]
  | some lines => simp [getRelatedModelDisplayField, hl, scanLines_start_spec]

end Bui
